import Mathlib

/-!
Shallow embedding of the retrieval-augmented answering pipeline of `src/DS1.py`:
the chunker `split_into_chunks`, the retriever `DocumentRetriever.get_relevant_docs`,
the context/prompt assembly, the response cleaner `clean_response` and the
end-to-end `generate_response`.  External capabilities (the sentence tokenizer
`nltk.sent_tokenize`, the sentence-transformer encoder, the HF tokenizer and the
generation model) are parameters; fallible ones return `Option`.
-/

/-- A source document record `{name, text}` as loaded from the corpus JSON. -/
structure Doc where
  name : String
  text : String
deriving DecidableEq

/-- A candidate passage `{'name': "<doc name> (чанк i)", 'text': chunk}` as built
inside `DocumentRetriever.get_relevant_docs`. -/
structure Chunk where
  name : String
  text : String
deriving DecidableEq

/-- Python `" ".join(parts)`. -/
def joinSpace : List String → String
  | [] => ""
  | [s] => s
  | s :: t :: rest => s ++ " " ++ joinSpace (t :: rest)

/-- Total character count of a list of units.  The running `current_length` of
`split_into_chunks` counts exactly this sum — not the spaces `" ".join` inserts. -/
def sumLens (l : List String) : Nat := (l.map String.length).sum

/-- The greedy accumulation loop of `split_into_chunks` (src/DS1.py lines 41-55),
kept at the level of blocks of consecutive units; the source emits
`" ".join(current_chunk)` for each closed block, which `splitIntoChunks` applies
below via `joinSpace`.  Arguments mirror `sentences`, `current_chunk`,
`current_length`. -/
def greedyAux (chunk_size : Nat) : List String → List String → Nat → List (List String)
  | [], cur, _ => if cur = [] then [] else [cur]
  | sent :: rest, cur, curLen =>
    if chunk_size < curLen + sent.length ∧ cur ≠ [] then
      cur :: greedyAux chunk_size rest [sent] sent.length
    else
      greedyAux chunk_size rest (cur ++ [sent]) (curLen + sent.length)

/-- Fixed-width slicing `[text[i:i + chunk_size] for i in range(0, len(text), chunk_size)]`
(src/DS1.py line 39).  Fuel bounds the recursion; `text.length` steps always
suffice for a positive `chunk_size`. -/
def sliceAux (chunk_size : Nat) : Nat → List Char → List (List Char)
  | _, [] => []
  | 0, l => [l]
  | fuel + 1, l => l.take chunk_size :: sliceAux chunk_size fuel (l.drop chunk_size)

/-- The fallback segmentation of `split_into_chunks` when `sent_tokenize` raises. -/
def sliceChars (chunk_size : Nat) (text : List Char) : List (List Char) :=
  sliceAux chunk_size text.length text

/-- The unit sequence `sentences` of `split_into_chunks`: the sentence
tokenizer's output, or fixed-width raw slices when segmentation raises
(`split _ = none`). -/
def unitsOf (split : String → Option (List String)) (text : String) (chunk_size : Nat) :
    List String :=
  match split text with
  | some sents => sents
  | none => (sliceChars chunk_size text.toList).map String.mk

/-- `split_into_chunks` (src/DS1.py lines 34-57), parametrized by the external
`sent_tokenize` capability. -/
def splitIntoChunks (split : String → Option (List String)) (text : String)
    (chunk_size : Nat) : List String :=
  (greedyAux chunk_size (unitsOf split text chunk_size) [] 0).map joinSpace

/-- Size discipline of an emitted block: either the total unit length stays
within the target, or the block is a single oversized unit kept whole. -/
def goodBlock (chunk_size : Nat) (b : List String) : Prop :=
  sumLens b ≤ chunk_size ∨ ∃ u, b = [u] ∧ chunk_size < u.length

/-- Per-document pool contribution (src/DS1.py lines 69-77): chunk the text with
the default size 300, keep only the first 5 chunks, attach 1-based labels. -/
def docChunks (split : String → Option (List String)) (d : Doc) : List Chunk :=
  ((splitIntoChunks split d.text 300).take 5).enum.map
    (fun p => ⟨d.name ++ " (чанк " ++ toString (p.1 + 1) ++ ")", p.2⟩)

/-- The full candidate pool built by `get_relevant_docs` over all documents. -/
def buildPool (split : String → Option (List String)) (docs : List Doc) : List Chunk :=
  (docs.map (docChunks split)).flatten

/-- Dot product of two embedding vectors (`np.dot`, row by vector). -/
def dot (a b : List ℚ) : ℚ := ((a.zip b).map (fun p => p.1 * p.2)).sum

/-- Similarity score of a passage text against the query under encoder `enc`. -/
def chunkScore (enc : String → List ℚ) (query text : String) : ℚ :=
  dot (enc text) (enc query)

/-- `similarities = np.dot(chunk_embeddings, query_embedding)`. -/
def simsOf (enc : String → List ℚ) (query : String) (pool : List Chunk) : List ℚ :=
  pool.map (fun c => chunkScore enc query c.text)

/-- Ascending comparison of positions of the score vector, ties broken by
position: the deterministic (stable) reading of `np.argsort`. -/
def keyLe (s : List ℚ) (i j : Nat) : Prop :=
  s.getD i 0 < s.getD j 0 ∨ (s.getD i 0 = s.getD j 0 ∧ i ≤ j)

instance keyLeDecidable (s : List ℚ) : DecidableRel (keyLe s) := fun i j => by
  unfold keyLe
  exact inferInstance

instance keyLeTotal (s : List ℚ) : IsTotal Nat (keyLe s) := by
  constructor
  intro i j
  rcases lt_trichotomy (s.getD i 0) (s.getD j 0) with h | h | h
  · exact Or.inl (Or.inl h)
  · rcases Nat.le_total i j with hij | hij
    · exact Or.inl (Or.inr ⟨h, hij⟩)
    · exact Or.inr (Or.inr ⟨h.symm, hij⟩)
  · exact Or.inr (Or.inl h)

instance keyLeTrans (s : List ℚ) : IsTrans Nat (keyLe s) := by
  constructor
  intro a b c hab hbc
  rcases hab with h1 | ⟨e1, le1⟩
  · rcases hbc with h2 | ⟨e2, _⟩
    · exact Or.inl (h1.trans h2)
    · exact Or.inl (e2 ▸ h1)
  · rcases hbc with h2 | ⟨e2, le2⟩
    · exact Or.inl (lt_of_le_of_lt (le_of_eq e1) h2)
    · exact Or.inr ⟨e1.trans e2, le1.trans le2⟩

/-- One admissible output of `np.argsort(similarities)`: score positions sorted
ascending by score, with ties broken by ascending position.  The library's
default `kind='quicksort'` is documented as unstable, so the program guarantees
no particular tie order; the embedding fixes this one only to stay executable
(it agrees with the library on arrays small enough to hit its insertion-sort
fallback, such as the two-element counterexample below).  `isArgsortOf` states
exactly what the library does guarantee, and theorems quantify over it wherever
tie order could matter. -/
def argsort (s : List ℚ) : List Nat :=
  List.insertionSort (keyLe s) (List.range s.length)

/-- Start offset of Python `xs[-top_k:]`: for `top_k = 0` the slice is the whole
list, otherwise the last `top_k` elements. -/
def pyTail (top_k n : Nat) : Nat := if top_k = 0 then 0 else n - top_k

/-- `np.argsort(similarities)[-top_k:][::-1]`: the selected index sequence of
`get_relevant_docs`. -/
def selIdx (top_k : Nat) (s : List ℚ) : List Nat :=
  ((argsort s).drop (pyTail top_k s.length)).reverse

/-- Everything `np.argsort(s)` guarantees about its output, and nothing more:
a permutation of the positions `0, ..., |s| - 1` along which the scores are
non-decreasing.  No tie order among equal scores may be assumed. -/
def isArgsortOf (s : List ℚ) (idx : List Nat) : Prop :=
  idx.Perm (List.range s.length) ∧
  idx.Pairwise (fun i j => s.getD i 0 ≤ s.getD j 0)

/-- The selection `idx[-top_k:][::-1]` of `get_relevant_docs`, mapped over the
pool, for an arbitrary argsort output `idx`. -/
def pySelect (top_k : Nat) (idx : List Nat) (pool : List Chunk) : List Chunk :=
  ((idx.drop (pyTail top_k idx.length)).reverse).map (fun i => pool.getD i ⟨"", ""⟩)

/-- One call to the sentence-transformer encoder, recorded in source order. -/
inductive EncCall where
  | query (q : String)
  | batch (texts : List String)
deriving DecidableEq

/-- `DocumentRetriever.get_relevant_docs` (src/DS1.py lines 64-91), instrumented
with the trace of encoder calls it performs.  `enc` is the external encoder,
`split` the external sentence tokenizer.  The source encodes the query first
(line 66), builds the pool, returns `[]` on an empty pool (line 80), otherwise
batch-encodes the pool, selects `[-top_k:][::-1]` of the argsort and gates on
`similarities[top_indices[0]] >= 0.25` (line 87). -/
def getRelevantDocsT (enc : String → List ℚ) (split : String → Option (List String))
    (query : String) (docs : List Doc) (top_k : Nat) : List Chunk × List EncCall :=
  let pool := buildPool split docs
  if pool = [] then ([], [EncCall.query query])
  else
    let sims := simsOf enc query pool
    let sel := selIdx top_k sims
    let best := sel.map (fun i => pool.getD i ⟨"", ""⟩)
    (if (0.25 : ℚ) ≤ sims.getD (sel.headD 0) 0 then best else [],
      [EncCall.query query, EncCall.batch (pool.map (fun c => c.text))])

/-- The retrieval result: first component of the instrumented retriever. -/
def getRelevantDocs (enc : String → List ℚ) (split : String → Option (List String))
    (query : String) (docs : List Doc) (top_k : Nat) : List Chunk :=
  (getRelevantDocsT enc split query docs top_k).1

/-- Does `s` start with `pat`? -/
def startsWith : List Char → List Char → Bool
  | _, [] => true
  | [], _ :: _ => false
  | c :: cs, p :: ps => c = p && startsWith cs ps

/-- Python `pat in s` on character lists. -/
def containsSub : List Char → List Char → Bool
  | [], pat => pat.isEmpty
  | c :: t, pat => startsWith (c :: t) pat || containsSub t pat

/-- Worker for `afterLast`: consume non-overlapping occurrences of `pat` left to
right and return the trailing segment.  Fuel bounds the recursion; `s.length`
steps always suffice for a non-empty `pat`. -/
def afterLastAux (pat : List Char) : Nat → List Char → List Char
  | 0, s => s
  | fuel + 1, s =>
    if containsSub s pat then
      if startsWith s pat then afterLastAux pat fuel (s.drop pat.length)
      else afterLastAux pat fuel s.tail
    else s

/-- Python `s.split(pat)[-1]`: the text after the last (left-to-right,
non-overlapping) occurrence of `pat`. -/
def afterLast (pat s : List Char) : List Char := afterLastAux pat s.length s

/-- The whitespace set of Python `str.strip()` (ASCII part). -/
def isPyWs (c : Char) : Bool :=
  c = ' ' || c = '\t' || c = '\n' || c = '\r' || c = '\x0b' || c = '\x0c'

/-- Python `s.strip()`. -/
def stripPy (l : List Char) : List Char :=
  ((l.dropWhile isPyWs).reverse.dropWhile isPyWs).reverse

/-- Maximal run of digits, at least one: the deterministic match of `\d+`
followed by a non-digit; returns the rest after the digits. -/
def digits1 : List Char → Option (List Char)
  | c :: t => if c.isDigit then some (t.dropWhile Char.isDigit) else none
  | [] => none

/-- Match of the footnote pattern `\[\d+\.\d+\.\d+\]` at the head of the input;
returns the rest after the match.  Since digits, dots and brackets are disjoint,
greedy `\d+` needs no backtracking. -/
def matchFootnote : List Char → Option (List Char)
  | '[' :: r =>
    match digits1 r with
    | some ('.' :: r) =>
      match digits1 r with
      | some ('.' :: r) =>
        match digits1 r with
        | some (']' :: r) => some r
        | _ => none
      | _ => none
    | _ => none
  | _ => none

/-- Match of the page-break pattern `\.\.\.\d+\.\.\.` at the head of the input. -/
def matchEllipsis : List Char → Option (List Char)
  | '.' :: '.' :: '.' :: r =>
    match digits1 r with
    | some ('.' :: '.' :: '.' :: r) => some r
    | _ => none
  | _ => none

/-- The single-pass scan of `re.sub(pattern, '', s)`: at each position either
consume a match of `m` and continue after it, or keep the character and advance
one.  Fuel bounds the recursion; `s.length` steps always suffice because a
match consumes at least one character. -/
def scrub (m : List Char → Option (List Char)) : Nat → List Char → List Char
  | 0, s => s
  | _ + 1, [] => []
  | fuel + 1, c :: t =>
    match m (c :: t) with
    | some rest => scrub m fuel rest
    | none => c :: scrub m fuel t

/-- `re.sub(r'\[\d+\.\d+\.\d+\]', '', s)` (src/DS1.py lines 164 and 174). -/
def removeFootnotes (s : List Char) : List Char := scrub matchFootnote s.length s

/-- `re.sub(r'\.\.\.\d+\.\.\.', '', s)` (src/DS1.py line 163). -/
def removeEllipsis (s : List Char) : List Char := scrub matchEllipsis s.length s

/-- The role-delimiter marker looked for by `clean_response`. -/
def imMarker : List Char := "<|im_start|>assistant".toList

/-- `clean_response` (src/DS1.py lines 169-179), parametrized by the external
`sent_tokenize` capability (`split _ = none` models a raised exception).  Note
the `except` branch returns the reassigned `response`, i.e. the marker-stripped
and footnote-scrubbed text, capped at 1000 characters. -/
def clean_response (split : String → Option (List String)) (response : String) : String :=
  let r1 : List Char :=
    if containsSub response.toList imMarker then stripPy (afterLast imMarker response.toList)
    else response.toList
  let r2 : List Char := removeFootnotes r1
  match split (String.mk r2) with
  | some sents => joinSpace (sents.take 10)
  | none => String.mk (r2.take 1000)

/-- Artifact stripping applied to each chunk text by `format_context`
(src/DS1.py lines 163-164): first the page-break pattern, then the footnote
pattern. -/
def cleanChunkText (t : String) : String :=
  String.mk (removeFootnotes (removeEllipsis t.toList))

/-- Python `"\n\n".join(parts)`. -/
def joinBlank : List String → String
  | [] => ""
  | [s] => s
  | s :: t :: rest => s ++ "\n\n" ++ joinBlank (t :: rest)

/-- `format_context` (src/DS1.py lines 160-166). -/
def format_context (chunks : List Chunk) : String :=
  joinBlank (chunks.map (fun c => "📄 " ++ c.name ++ ":\n" ++ cleanChunkText c.text))

/-- The f-string prompt template of `generate_response` (src/DS1.py lines 124-138). -/
def buildPrompt (query context : String) : String :=
  "\n        [ИНСТРУКЦИИ]\n        1. Ответь ТОЛЬКО на основе приведенного контекста\n        2. Используй понятные примеры из реальной жизни\n        3. Избегай технических терминов\n        4. Форматируй ответ как маркированный список\n\n        [КОНТЕКСТ]\n        " ++ context ++ "\n\n        [ВОПРОС]\n        " ++ query ++ "\n\n        [ОТВЕТ]\n        "

/-- The truncation performed by `tokenizer(prompt, return_tensors="pt",
truncation=True, max_length=4096)` (src/DS1.py line 140).  Modelled from the
transformers library contract: with `truncation=True` and the default
`truncation_side="right"` (the source sets only `padding_side`), the tokenized
sequence is cut to its first `max_length` tokens. -/
def hfTruncate (max_length : Nat) (tokens : List Nat) : List Nat := tokens.take max_length

/-- The canonical "not found" sentinel returned by `generate_response`. -/
def notFoundMsg : String := "Информация не найдена"

/-- The generic error fallback returned by `generate_response`. -/
def errorMsg : String := "Произошла ошибка при обработке запроса"

/-- The token sequence handed to `model.generate` for a given query and corpus. -/
def generatorInput (enc : String → List ℚ) (split : String → Option (List String))
    (tok : String → List Nat) (query : String) (docs : List Doc) : List Nat :=
  hfTruncate 4096
    (tok (buildPrompt query (format_context (getRelevantDocs enc split query docs 3))))

/-- `generate_response` (src/DS1.py lines 115-157).  `tok` is the external
tokenizer (total), and `llm` the external generate-and-decode step; `llm _ = none`
models a raised backend exception, which the source's `except` turns into the
generic fallback string.  Retrieval itself never raises (it catches internally),
and `clean_response` catches internally as well, so the fallible region is
exactly the `llm` call. -/
def generate_response (enc : String → List ℚ) (split : String → Option (List String))
    (tok : String → List Nat) (llm : List Nat → Option String)
    (query : String) (docs : List Doc) : String :=
  let relevant := getRelevantDocs enc split query docs 3
  if relevant = [] then notFoundMsg
  else
    match llm (generatorInput enc split tok query docs) with
    | none => errorMsg
    | some out => clean_response split out

/-- Test encoder: every text is embedded as the vector `[1]`, so every passage
scores `1` against every query. -/
def enc1 : String → List ℚ := fun _ => [1]

/-- Test sentence tokenizer: the whole text is one sentence. -/
def split1 : String → Option (List String) := fun s => some [s]

/-- Sentence tokenizer behaving as `nltk.sent_tokenize` does on one-sentence
inputs: the whole non-empty text is a single sentence, an empty text has none. -/
def stOne : String → Option (List String) := fun s => some (if s = "" then [] else [s])

/-- Test tokenizer that always raises (`none`), driving the fallback paths. -/
def splitFail : String → Option (List String) := fun _ => none

/-- Test tokenizer producing the two units `["aaa", "bb"]` for any text. -/
def split52 : String → Option (List String) := fun _ => some ["aaa", "bb"]

/-- One-document corpus. -/
def docs1 : List Doc := [⟨"A", "ab"⟩]

/-- Two-document corpus whose two pooled passages score identically under `enc1`. -/
def docs2 : List Doc := [⟨"A", "ab"⟩, ⟨"B", "cd"⟩]

/-- The passage contributed by document `A` of `docs2`. -/
def aChunk : Chunk := ⟨"A (чанк 1)", "ab"⟩

/-- The passage contributed by document `B` of `docs2`. -/
def bChunk : Chunk := ⟨"B (чанк 1)", "cd"⟩

/-- Test HF tokenizer: every prompt tokenizes to 4097 tokens `0, 1, ..., 4096`. -/
def tok0 : String → List Nat := fun _ => List.range 4097

/-- Test HF tokenizer producing no tokens. -/
def tokEmpty : String → List Nat := fun _ => []

/-- Test generation backend that always raises. -/
def llm0 : List Nat → Option String := fun _ => none

/-- Test generation backend whose decoded output is itself the "not found"
sentinel text. -/
def llmNF : List Nat → Option String := fun _ => some "Информация не найдена"

/-- Test generation backend producing an ordinary answer. -/
def llmHello : List Nat → Option String := fun _ => some "hello"

/-- Input on which `clean_response` is not idempotent: removing the footnote
match `[1.1.1]` exposes a new occurrence of the same pattern. -/
def cexClean : String := "[1.[1.1.1]1.1]"

theorem sumLens_nil : sumLens [] = 0 := rfl

theorem sumLens_cons (s : String) (l : List String) :
    sumLens (s :: l) = s.length + sumLens l := by
  simp [sumLens]

theorem sumLens_append (l₁ l₂ : List String) :
    sumLens (l₁ ++ l₂) = sumLens l₁ + sumLens l₂ := by
  simp [sumLens]

theorem strLength_pos (u : String) (h : u ≠ "") : 0 < u.length := by
  cases u with
  | mk d =>
    cases d with
    | nil => exact absurd rfl h
    | cons c cs => simp [String.length]

theorem greedyAux_flatten (cs : Nat) :
    ∀ (sents cur : List String) (curLen : Nat),
      (greedyAux cs sents cur curLen).flatten = cur ++ sents := by
  intro sents
  induction sents with
  | nil =>
    intro cur curLen
    by_cases h : cur = [] <;> simp [greedyAux, h]
  | cons s rest ih =>
    intro cur curLen
    rw [greedyAux]
    split
    · rw [List.flatten_cons, ih]
      simp
    · rw [ih]
      simp

theorem greedyAux_ne_nil (cs : Nat) :
    ∀ (sents cur : List String) (curLen : Nat) (b : List String),
      b ∈ greedyAux cs sents cur curLen → b ≠ [] := by
  intro sents
  induction sents with
  | nil =>
    intro cur curLen b hb
    by_cases h : cur = []
    · simp [greedyAux, h] at hb
    · simp [greedyAux, h] at hb
      exact hb ▸ h
  | cons s rest ih =>
    intro cur curLen b hb
    rw [greedyAux] at hb
    split at hb
    · rcases List.mem_cons.mp hb with rfl | hb2
      · next hcond => exact hcond.2
      · exact ih _ _ _ hb2
    · exact ih _ _ _ hb

theorem greedyAux_good (cs : Nat) :
    ∀ (sents cur : List String) (curLen : Nat), curLen = sumLens cur → goodBlock cs cur →
      ∀ b ∈ greedyAux cs sents cur curLen, goodBlock cs b := by
  intro sents
  induction sents with
  | nil =>
    intro cur curLen _ hgood b hb
    by_cases h : cur = []
    · simp [greedyAux, h] at hb
    · simp [greedyAux, h] at hb
      exact hb ▸ hgood
  | cons s rest ih =>
    intro cur curLen hlen hgood b hb
    have hsingle : goodBlock cs [s] := by
      rcases le_or_lt s.length cs with hle | hlt
      · exact Or.inl (by simpa [sumLens] using hle)
      · exact Or.inr ⟨s, rfl, hlt⟩
    rw [greedyAux] at hb
    split at hb
    · rcases List.mem_cons.mp hb with rfl | hb2
      · exact hgood
      · exact ih [s] s.length (by simp [sumLens]) hsingle b hb2
    · next hcond =>
      rcases not_and_or.mp hcond with h1 | h2
      · have hle : curLen + s.length ≤ cs := Nat.le_of_not_lt h1
        exact ih (cur ++ [s]) (curLen + s.length)
          (by rw [sumLens_append, hlen, sumLens_cons, sumLens_nil]; omega)
          (Or.inl (by rw [sumLens_append, sumLens_cons, sumLens_nil]; omega)) b hb
      · have hc : cur = [] := not_not.mp h2
        subst hc
        have hl0 : curLen = 0 := by simpa [sumLens] using hlen
        subst hl0
        simp only [List.nil_append, Nat.zero_add] at hb
        exact ih [s] s.length (by simp [sumLens]) hsingle b hb

theorem joinSpace_length : ∀ l : List String,
    (joinSpace l).length = sumLens l + (l.length - 1) := by
  intro l
  induction l with
  | nil => simp [joinSpace, sumLens]
  | cons s t ih =>
    cases t with
    | nil => simp [joinSpace, sumLens]
    | cons t2 rest =>
      rw [joinSpace, String.length_append, String.length_append, ih]
      rw [show (" " : String).length = 1 from rfl]
      simp only [sumLens_cons, List.length_cons]
      omega

theorem joinSpace_ne_empty (b : List String) (hb : b ≠ [])
    (hu : ∀ u ∈ b, u ≠ "") : joinSpace b ≠ "" := by
  intro hjs
  have hlen := congrArg String.length hjs
  rw [joinSpace_length] at hlen
  cases b with
  | nil => exact hb rfl
  | cons u rest =>
    have hupos : 0 < u.length := strLength_pos u (hu u (List.mem_cons_self u rest))
    rw [sumLens_cons, show ("" : String).length = 0 from rfl] at hlen
    simp only [List.length_cons] at hlen
    omega

theorem joinSpace_append : ∀ (xs ys : List String), xs ≠ [] → ys ≠ [] →
    joinSpace (xs ++ ys) = joinSpace xs ++ " " ++ joinSpace ys := by
  intro xs
  induction xs with
  | nil => intro ys h _; exact absurd rfl h
  | cons x xs2 ih =>
    intro ys _ hys
    cases xs2 with
    | nil =>
      cases ys with
      | nil => exact absurd rfl hys
      | cons y ys2 => rfl
    | cons x2 xs3 =>
      simp only [List.cons_append, joinSpace, List.append_eq]
      rw [← List.cons_append, ih ys (by simp) hys]
      simp [String.append_assoc]

theorem joinSpace_flatten : ∀ (blocks : List (List String)),
    (∀ b ∈ blocks, b ≠ []) →
    joinSpace (blocks.map joinSpace) = joinSpace blocks.flatten := by
  intro blocks
  induction blocks with
  | nil => intro _; rfl
  | cons b bs ih =>
    intro hne
    have hb : b ≠ [] := hne b (List.mem_cons_self b bs)
    cases bs with
    | nil => simp [joinSpace]
    | cons b2 bs2 =>
      have hb2 : b2 ≠ [] := hne b2 (by simp)
      have hflat : (b2 :: bs2).flatten ≠ [] := by
        rw [List.flatten_cons]
        intro h
        exact hb2 (List.append_eq_nil.mp h).1
      rw [List.map_cons, List.flatten_cons]
      rw [joinSpace_append b (b2 :: bs2).flatten hb hflat]
      rw [← ih (fun x hx => hne x (List.mem_cons_of_mem b hx))]
      rfl

/-- Claim C5 counterexample: with target size 5 and the two units `"aaa"`, `"bb"`
(no unit longer than 5), `split_into_chunks` emits the single passage
`"aaa bb"` of length 6 > 5, because the running length counts only the unit
characters and not the joining space.  This falsifies the claim that every
passage has length at most the target size unless a single atomic unit itself
exceeds it. -/
theorem c5_cex :
    unitsOf split52 "aaa bb" 5 = ["aaa", "bb"] ∧
    (∀ u ∈ unitsOf split52 "aaa bb" 5, u.length ≤ 5) ∧
    splitIntoChunks split52 "aaa bb" 5 = ["aaa bb"] ∧
    5 < ("aaa bb" : String).length := by
  refine ⟨by decide, by decide, by decide, by decide⟩

/-- Claim C5 (amended): provided every unit is non-empty, every passage emitted
by `split_into_chunks` is non-empty and is the space-join of a non-empty run of
consecutive units whose summed unit length is at most the target size — unless
the run is a single unit longer than the target size, which is emitted whole in
its own passage.  (Counting the joining spaces, a passage may therefore exceed
the target size by up to the number of joined units minus one.) -/
theorem c5_amended (split : String → Option (List String)) (text : String) (cs : Nat)
    (hu : ∀ u ∈ unitsOf split text cs, u ≠ "") :
    ∀ p ∈ splitIntoChunks split text cs, p ≠ "" ∧
      ∃ b : List String, b ≠ [] ∧ (∀ u ∈ b, u ∈ unitsOf split text cs) ∧
        p = joinSpace b ∧ goodBlock cs b := by
  intro p hp
  rw [splitIntoChunks, List.mem_map] at hp
  obtain ⟨b, hb, hbp⟩ := hp
  have hbne : b ≠ [] := greedyAux_ne_nil cs _ _ _ b hb
  have hbsub : ∀ u ∈ b, u ∈ unitsOf split text cs := by
    intro u hub
    have : u ∈ (greedyAux cs (unitsOf split text cs) [] 0).flatten :=
      List.mem_flatten.mpr ⟨b, hb, hub⟩
    rwa [greedyAux_flatten, List.nil_append] at this
  have hgood : goodBlock cs b :=
    greedyAux_good cs _ [] 0 rfl (Or.inl (by simp [sumLens])) b hb
  refine ⟨?_, b, hbne, hbsub, hbp.symm, hgood⟩
  rw [← hbp]
  exact joinSpace_ne_empty b hbne (fun u hub => hu u (hbsub u hub))

/-- Witness for C5 (amended) at a concrete input. -/
theorem c5_amended_witness :
    (∀ u ∈ unitsOf split1 "ab" 300, u ≠ "") ∧
    (∀ p ∈ splitIntoChunks split1 "ab" 300, p ≠ "" ∧
      ∃ b : List String, b ≠ [] ∧ (∀ u ∈ b, u ∈ unitsOf split1 "ab" 300) ∧
        p = joinSpace b ∧ goodBlock 300 b) :=
  ⟨by decide, c5_amended split1 "ab" 300 (by decide)⟩

/-- Claim C8: the chunker drops no unit — joining the emitted passages with the
same single-space separator used inside passages reproduces the join of the
unit sequence, i.e. the original text modulo the joining whitespace between
units. -/
theorem c8_roundtrip (split : String → Option (List String)) (text : String) (cs : Nat) :
    joinSpace (splitIntoChunks split text cs) = joinSpace (unitsOf split text cs) := by
  rw [splitIntoChunks,
    joinSpace_flatten _ (fun b hb => greedyAux_ne_nil cs _ _ _ b hb),
    greedyAux_flatten, List.nil_append]

/-- Claim C9: the candidate pool is the concatenation of per-document
contributions, and every document contributes at most 5 passages regardless of
the length of its text. -/
theorem c9_perDocCap (split : String → Option (List String)) (docs : List Doc) :
    buildPool split docs = (docs.map (docChunks split)).flatten ∧
    ∀ d : Doc, (docChunks split d).length ≤ 5 := by
  refine ⟨rfl, fun d => ?_⟩
  rw [docChunks, List.length_map, List.enum_length]
  exact (List.length_take_le 5 _)

/-- Claim C6 counterexample: on an empty corpus the pool is empty and the
result is empty, but the encoder-call trace is not empty — the query is encoded
(src/DS1.py line 66) before the pool emptiness check (line 79).  This falsifies
"no encoder call (neither the query nor any passage is encoded)". -/
theorem c6_cex : (getRelevantDocsT enc1 split1 "q" ([] : List Doc) 3).2 ≠ [] := by
  decide

/-- Claim C6 (amended): if the candidate pool is empty, the retriever returns
the empty result immediately and the only encoder call performed is the single
query encoding that precedes the pool check; no passage is ever encoded. -/
theorem c6_amended (enc : String → List ℚ) (split : String → Option (List String))
    (query : String) (docs : List Doc) (top_k : Nat)
    (h : buildPool split docs = []) :
    getRelevantDocsT enc split query docs top_k = ([], [EncCall.query query]) := by
  rw [getRelevantDocsT]
  simp [h]

/-- Witness for C6 (amended) at a concrete input. -/
theorem c6_amended_witness :
    buildPool split1 ([] : List Doc) = [] ∧
    getRelevantDocsT enc1 split1 "q" ([] : List Doc) 3 = ([], [EncCall.query "q"]) :=
  ⟨by decide, c6_amended enc1 split1 "q" [] 3 (by decide)⟩

theorem argsort_perm (s : List ℚ) : (argsort s).Perm (List.range s.length) :=
  List.perm_insertionSort (keyLe s) (List.range s.length)

theorem argsort_sorted (s : List ℚ) : (argsort s).Pairwise (keyLe s) :=
  List.sorted_insertionSort (keyLe s) (List.range s.length)

theorem argsort_length (s : List ℚ) : (argsort s).length = s.length := by
  rw [(argsort_perm s).length_eq, List.length_range]

theorem argsort_mem {s : List ℚ} {i : Nat} : i ∈ argsort s ↔ i < s.length := by
  rw [(argsort_perm s).mem_iff, List.mem_range]

theorem argsort_nodup (s : List ℚ) : (argsort s).Nodup :=
  ((argsort_perm s).nodup_iff).mpr (List.nodup_range s.length)

theorem pyTail_lt {top_k n : Nat} (hn : 0 < n) : pyTail top_k n < n := by
  rw [pyTail]
  split <;> omega

theorem drop_argsort_ne_nil {s : List ℚ} (hs : s ≠ []) (k : Nat) :
    (argsort s).drop (pyTail k s.length) ≠ [] := by
  apply List.ne_nil_of_length_pos
  rw [List.length_drop, argsort_length]
  have hn : 0 < s.length := List.length_pos.mpr hs
  have : pyTail k s.length < s.length := pyTail_lt hn
  omega

theorem selIdx_ne_nil {s : List ℚ} (hs : s ≠ []) (k : Nat) : selIdx k s ≠ [] := by
  rw [selIdx]
  intro h
  exact drop_argsort_ne_nil hs k (by simpa using congrArg List.reverse h)

theorem selIdx_head? {s : List ℚ} (hs : s ≠ []) (k : Nat) :
    (selIdx k s).head? = (argsort s).getLast? := by
  rw [selIdx, List.head?_reverse]
  obtain ⟨b, hb⟩ := Option.isSome_iff_exists.mp
    (List.getLast?_isSome.mpr (drop_argsort_ne_nil hs k))
  conv_rhs => rw [← List.take_append_drop (pyTail k s.length) (argsort s)]
  rw [List.getLast?_append, hb]
  rfl

theorem pairwise_rel_getLast {α : Type} {r : α → α → Prop} :
    ∀ {l : List α} {b : α}, l.Pairwise r → l.getLast? = some b →
      ∀ a ∈ l, a = b ∨ r a b := by
  intro l
  induction l with
  | nil => intro b _ hb; cases hb
  | cons c t ih =>
    intro b hp hb a ha
    cases t with
    | nil =>
      rw [List.getLast?_singleton] at hb
      rcases List.mem_singleton.mp ha with rfl
      exact Or.inl (Option.some.inj hb)
    | cons c2 t2 =>
      rw [List.getLast?_cons_cons] at hb
      rcases List.mem_cons.mp ha with rfl | hat
      · have hbmem : b ∈ c2 :: t2 := List.mem_of_getLast?_eq_some hb
        exact Or.inr (List.rel_of_pairwise_cons hp hbmem)
      · exact ih hp.of_cons hb a hat

theorem keyLe_le {s : List ℚ} {i j : Nat} (h : keyLe s i j) : s.getD i 0 ≤ s.getD j 0 := by
  rcases h with h | ⟨h, _⟩
  · exact le_of_lt h
  · exact le_of_eq h

theorem selIdx_headD_lt {s : List ℚ} (hs : s ≠ []) (k : Nat) :
    (selIdx k s).headD 0 < s.length := by
  obtain ⟨b, hb⟩ := Option.isSome_iff_exists.mp
    (List.getLast?_isSome.mpr (by
      apply List.ne_nil_of_length_pos
      rw [argsort_length]
      exact List.length_pos.mpr hs))
  rw [List.headD_eq_head?_getD, selIdx_head? hs k, hb, Option.getD_some]
  exact argsort_mem.mp (List.mem_of_getLast?_eq_some hb)

theorem selIdx_headD_max {s : List ℚ} (hs : s ≠ []) (k : Nat) :
    ∀ x ∈ s, x ≤ s.getD ((selIdx k s).headD 0) 0 := by
  intro x hx
  obtain ⟨b, hb⟩ := Option.isSome_iff_exists.mp
    (List.getLast?_isSome.mpr (by
      apply List.ne_nil_of_length_pos
      rw [argsort_length]
      exact List.length_pos.mpr hs))
  have hhead : (selIdx k s).headD 0 = b := by
    rw [List.headD_eq_head?_getD, selIdx_head? hs k, hb, Option.getD_some]
  obtain ⟨j, hj, hxj⟩ := List.mem_iff_getElem.mp hx
  have hjmem : j ∈ argsort s := argsort_mem.mpr hj
  have hrel := pairwise_rel_getLast (argsort_sorted s) hb j hjmem
  rw [hhead, ← hxj]
  rcases hrel with rfl | hk
  · exact le_of_eq (by rw [List.getD_eq_getElem _ _ hj])
  · have := keyLe_le hk
    rwa [List.getD_eq_getElem _ _ hj] at this

theorem gate_iff {s : List ℚ} (hs : s ≠ []) (k : Nat) :
    ((0.25 : ℚ) ≤ s.getD ((selIdx k s).headD 0) 0) ↔ ∃ x ∈ s, (0.25 : ℚ) ≤ x := by
  constructor
  · intro h
    refine ⟨s.getD ((selIdx k s).headD 0) 0, ?_, h⟩
    rw [List.getD_eq_getElem _ _ (selIdx_headD_lt hs k)]
    exact List.getElem_mem _
  · rintro ⟨x, hx, hxq⟩
    exact hxq.trans (selIdx_headD_max hs k x hx)

theorem simsOf_length (enc : String → List ℚ) (query : String) (pool : List Chunk) :
    (simsOf enc query pool).length = pool.length := by
  rw [simsOf, List.length_map]

theorem simsOf_ne_nil {enc : String → List ℚ} {query : String} {pool : List Chunk}
    (hp : pool ≠ []) : simsOf enc query pool ≠ [] := by
  rw [simsOf]
  simpa using hp

theorem simsOf_getD (enc : String → List ℚ) (query : String) (pool : List Chunk)
    {i : Nat} (hi : i < pool.length) :
    (simsOf enc query pool).getD i 0 =
      chunkScore enc query ((pool.getD i ⟨"", ""⟩).text) := by
  rw [simsOf, List.getD_eq_getElem _ _ (by rw [List.length_map]; exact hi),
    List.getElem_map, List.getD_eq_getElem _ _ hi]

theorem getRelevantDocs_eq (enc : String → List ℚ) (split : String → Option (List String))
    (query : String) (docs : List Doc) (top_k : Nat)
    (hp : buildPool split docs ≠ []) :
    getRelevantDocs enc split query docs top_k =
      if (0.25 : ℚ) ≤ (simsOf enc query (buildPool split docs)).getD
          ((selIdx top_k (simsOf enc query (buildPool split docs))).headD 0) 0
      then (selIdx top_k (simsOf enc query (buildPool split docs))).map
          (fun i => (buildPool split docs).getD i ⟨"", ""⟩)
      else [] := by
  rw [getRelevantDocs, getRelevantDocsT]
  simp only [if_neg hp]

theorem isArgsortOf_length {s : List ℚ} {idx : List Nat} (h : isArgsortOf s idx) :
    idx.length = s.length := by
  rw [h.1.length_eq, List.length_range]

theorem isArgsortOf_mem {s : List ℚ} {idx : List Nat} (h : isArgsortOf s idx) {i : Nat} :
    i ∈ idx ↔ i < s.length := by
  rw [h.1.mem_iff, List.mem_range]

theorem argsort_isArgsortOf (s : List ℚ) : isArgsortOf s (argsort s) :=
  ⟨argsort_perm s, (argsort_sorted s).imp (fun h => keyLe_le h)⟩

theorem selIdx_length (k : Nat) (s : List ℚ) (hk : 1 ≤ k) :
    (selIdx k s).length = min k s.length := by
  rw [selIdx, List.length_reverse, List.length_drop, argsort_length, pyTail]
  split <;> omega

/-- Claim C1: for a non-empty candidate pool, the retrieval result is empty
exactly when every candidate score is below the confidence threshold 0.25
(equivalently, when the maximum score is below it); it is non-empty only when
some candidate reaches the threshold. -/
theorem c1_confidenceGate (enc : String → List ℚ) (split : String → Option (List String))
    (query : String) (docs : List Doc) (top_k : Nat)
    (hp : buildPool split docs ≠ []) :
    getRelevantDocs enc split query docs top_k = [] ↔
      ∀ x ∈ simsOf enc query (buildPool split docs), x < (0.25 : ℚ) := by
  have hs : simsOf enc query (buildPool split docs) ≠ [] := simsOf_ne_nil hp
  rw [getRelevantDocs_eq enc split query docs top_k hp]
  by_cases hg : (0.25 : ℚ) ≤ (simsOf enc query (buildPool split docs)).getD
      ((selIdx top_k (simsOf enc query (buildPool split docs))).headD 0) 0
  · rw [if_pos hg]
    have hne : (selIdx top_k (simsOf enc query (buildPool split docs))).map
        (fun i => (buildPool split docs).getD i ⟨"", ""⟩) ≠ [] := by
      simp only [ne_eq, List.map_eq_nil_iff]
      exact selIdx_ne_nil hs top_k
    refine iff_of_false hne ?_
    intro hall
    obtain ⟨x, hx, hq⟩ := (gate_iff hs top_k).mp hg
    exact absurd (hall x hx) (not_lt.mpr hq)
  · rw [if_neg hg]
    refine iff_of_true rfl ?_
    intro x hx
    by_contra hcon
    push_neg at hcon
    exact hg ((gate_iff hs top_k).mpr ⟨x, hx, hcon⟩)

/-- Witness for C1 at a concrete input with a non-empty pool. -/
theorem c1_confidenceGate_witness :
    buildPool split1 docs1 ≠ [] ∧
    (getRelevantDocs enc1 split1 "q" docs1 3 = [] ↔
      ∀ x ∈ simsOf enc1 "q" (buildPool split1 docs1), x < (0.25 : ℚ)) :=
  ⟨by decide, c1_confidenceGate enc1 split1 "q" docs1 3 (by decide)⟩

theorem pool1_eq : buildPool split1 docs1 = [aChunk] := by decide

theorem pool2_eq : buildPool split1 docs2 = [aChunk, bChunk] := by decide

theorem sims1_eq : simsOf enc1 "q" (buildPool split1 docs1) = [1] := by
  rw [pool1_eq]
  norm_num [simsOf, chunkScore, dot, enc1, aChunk]

theorem sims2_eq : simsOf enc1 "q" (buildPool split1 docs2) = [1, 1] := by
  rw [pool2_eq]
  norm_num [simsOf, chunkScore, dot, enc1, aChunk, bChunk]

theorem argsort11 : argsort ([1, 1] : List ℚ) = [0, 1] := by
  have h01 : keyLe ([1, 1] : List ℚ) 0 1 := Or.inr ⟨rfl, by omega⟩
  rw [argsort, show (([1, 1] : List ℚ)).length = 2 from rfl,
    show List.range 2 = [0, 1] from rfl]
  simp only [List.insertionSort, List.orderedInsert]
  rw [if_pos h01]

theorem selIdx311 : selIdx 3 ([1, 1] : List ℚ) = [1, 0] := by
  rw [selIdx, argsort11]
  rfl

theorem grd2_eq : getRelevantDocs enc1 split1 "q" docs2 3 = [bChunk, aChunk] := by
  have hp : buildPool split1 docs2 ≠ [] := by rw [pool2_eq]; simp
  rw [getRelevantDocs_eq enc1 split1 "q" docs2 3 hp, sims2_eq, selIdx311,
    show (List.getD [(1 : ℚ), 1] (List.headD [1, 0] 0) 0) = (1 : ℚ) from rfl,
    if_pos (by norm_num : (0.25 : ℚ) ≤ 1), pool2_eq]
  rfl

theorem selIdx31 : selIdx 3 ([1] : List ℚ) = [0] := by
  rw [selIdx, argsort]
  rfl

theorem grd1_eq : getRelevantDocs enc1 split1 "q" docs1 3 = [aChunk] := by
  have hp : buildPool split1 docs1 ≠ [] := by rw [pool1_eq]; simp
  rw [getRelevantDocs_eq enc1 split1 "q" docs1 3 hp, sims1_eq, selIdx31,
    show (List.getD [(1 : ℚ)] (List.headD [0] 0) 0) = (1 : ℚ) from rfl,
    if_pos (by norm_num : (0.25 : ℚ) ≤ 1), pool1_eq]
  rfl

/-- Claim C2 counterexample: on a two-passage pool whose passages score equally,
the retriever returns the passages in *reverse* pool order (`[::-1]` reverses
the tail of the ascending argsort, ties included), so "original pool order is
preserved among equal scores (stable selection)" is false. -/
theorem c2_cex :
    buildPool split1 docs2 = [aChunk, bChunk] ∧
    chunkScore enc1 "q" aChunk.text = chunkScore enc1 "q" bChunk.text ∧
    aChunk ≠ bChunk ∧
    getRelevantDocs enc1 split1 "q" docs2 3 = [bChunk, aChunk] :=
  ⟨pool2_eq, rfl, by decide, grd2_eq⟩

/-- Claim C2 (amended): for `top_k ≥ 1`, a non-empty pool, a passing confidence
gate, and EVERY admissible argsort order of the candidate scores — any
permutation of the pool positions along which scores are non-decreasing, which
is all that `np.argsort`'s default unstable sort guarantees — the selection
`[-top_k:][::-1]` has length `min top_k (pool size)`, its scores are
non-increasing across the sequence, and every selected position scores at least
as high as every unselected one; the code's result is one such selection (the
embedding fixes positions-ascending ties only to stay executable).  No tie
order among equal scores is guaranteed by the program, and in particular the
original pool order is not preserved among equal scores (see the
counterexample). -/
theorem c2_amended (enc : String → List ℚ) (split : String → Option (List String))
    (query : String) (docs : List Doc) (k : Nat) (idx : List Nat) (hk : 1 ≤ k)
    (hp : buildPool split docs ≠ [])
    (hg : ∃ x ∈ simsOf enc query (buildPool split docs), (0.25 : ℚ) ≤ x)
    (hidx : isArgsortOf (simsOf enc query (buildPool split docs)) idx) :
    (pySelect k idx (buildPool split docs)).length =
      min k (buildPool split docs).length ∧
    (pySelect k idx (buildPool split docs)).Pairwise
      (fun a b => chunkScore enc query b.text ≤ chunkScore enc query a.text) ∧
    (∀ i ∈ (idx.drop (pyTail k idx.length)).reverse,
      ∀ j < (buildPool split docs).length,
        j ∉ (idx.drop (pyTail k idx.length)).reverse →
          (simsOf enc query (buildPool split docs)).getD j 0 ≤
            (simsOf enc query (buildPool split docs)).getD i 0) ∧
    isArgsortOf (simsOf enc query (buildPool split docs))
      (argsort (simsOf enc query (buildPool split docs))) ∧
    getRelevantDocs enc split query docs k =
      pySelect k (argsort (simsOf enc query (buildPool split docs)))
        (buildPool split docs) := by
  have hs : simsOf enc query (buildPool split docs) ≠ [] := simsOf_ne_nil hp
  have hilen : idx.length = (simsOf enc query (buildPool split docs)).length :=
    isArgsortOf_length hidx
  refine ⟨?_, ?_, ?_, argsort_isArgsortOf _, ?_⟩
  · rw [pySelect, List.length_map, List.length_reverse, List.length_drop, hilen,
      simsOf_length, pyTail]
    split <;> omega
  · rw [pySelect, List.pairwise_map]
    have h1 : ((idx.drop (pyTail k idx.length)).reverse).Pairwise
        (fun i j => (simsOf enc query (buildPool split docs)).getD j 0 ≤
          (simsOf enc query (buildPool split docs)).getD i 0) :=
      List.pairwise_reverse.mpr (hidx.2.sublist (List.drop_sublist _ _))
    refine List.Pairwise.imp_of_mem ?_ h1
    intro i j hi hj hrel
    have hi2 : i < (buildPool split docs).length := by
      rw [← simsOf_length enc query (buildPool split docs)]
      exact (isArgsortOf_mem hidx).mp
        ((List.drop_sublist _ _).mem (List.mem_reverse.mp hi))
    have hj2 : j < (buildPool split docs).length := by
      rw [← simsOf_length enc query (buildPool split docs)]
      exact (isArgsortOf_mem hidx).mp
        ((List.drop_sublist _ _).mem (List.mem_reverse.mp hj))
    rwa [simsOf_getD enc query _ hj2, simsOf_getD enc query _ hi2] at hrel
  · intro i hi j hj hjn
    have hi2 : i ∈ idx.drop (pyTail k idx.length) := List.mem_reverse.mp hi
    have hj2 : j ∈ idx := (isArgsortOf_mem hidx).mpr
      (by rw [simsOf_length]; exact hj)
    have hjn2 : j ∉ idx.drop (pyTail k idx.length) := fun h =>
      hjn (List.mem_reverse.mpr h)
    have hj3 : j ∈ idx.take (pyTail k idx.length) ++
        idx.drop (pyTail k idx.length) := by
      rw [List.take_append_drop]
      exact hj2
    have hjtake : j ∈ idx.take (pyTail k idx.length) := by
      rcases List.mem_append.mp hj3 with h | h
      · exact h
      · exact absurd h hjn2
    have hps := hidx.2
    rw [← List.take_append_drop (pyTail k idx.length) idx] at hps
    exact (List.pairwise_append.mp hps).2.2 j hjtake i hi2
  · have hgate := (gate_iff hs k).mpr hg
    rw [getRelevantDocs_eq enc split query docs k hp, if_pos hgate, pySelect,
      argsort_length, selIdx]

/-- Witness for C2 (amended) at a concrete input, instantiating the admissible
order with the argsort of the concrete scores. -/
theorem c2_amended_witness :
    (1 ≤ 3 ∧ buildPool split1 docs2 ≠ [] ∧
      (∃ x ∈ simsOf enc1 "q" (buildPool split1 docs2), (0.25 : ℚ) ≤ x) ∧
      isArgsortOf (simsOf enc1 "q" (buildPool split1 docs2))
        (argsort (simsOf enc1 "q" (buildPool split1 docs2)))) ∧
    ((pySelect 3 (argsort (simsOf enc1 "q" (buildPool split1 docs2)))
        (buildPool split1 docs2)).length = min 3 (buildPool split1 docs2).length ∧
    (pySelect 3 (argsort (simsOf enc1 "q" (buildPool split1 docs2)))
        (buildPool split1 docs2)).Pairwise
      (fun a b => chunkScore enc1 "q" b.text ≤ chunkScore enc1 "q" a.text) ∧
    (∀ i ∈ ((argsort (simsOf enc1 "q" (buildPool split1 docs2))).drop
        (pyTail 3 (argsort (simsOf enc1 "q" (buildPool split1 docs2))).length)).reverse,
      ∀ j < (buildPool split1 docs2).length,
        j ∉ ((argsort (simsOf enc1 "q" (buildPool split1 docs2))).drop
          (pyTail 3 (argsort (simsOf enc1 "q" (buildPool split1 docs2))).length)).reverse →
          (simsOf enc1 "q" (buildPool split1 docs2)).getD j 0 ≤
            (simsOf enc1 "q" (buildPool split1 docs2)).getD i 0) ∧
    isArgsortOf (simsOf enc1 "q" (buildPool split1 docs2))
      (argsort (simsOf enc1 "q" (buildPool split1 docs2))) ∧
    getRelevantDocs enc1 split1 "q" docs2 3 =
      pySelect 3 (argsort (simsOf enc1 "q" (buildPool split1 docs2)))
        (buildPool split1 docs2)) :=
  ⟨⟨by omega, by rw [pool2_eq]; simp,
      ⟨1, by rw [sims2_eq]; exact List.mem_cons_self 1 [1], by norm_num⟩,
      argsort_isArgsortOf _⟩,
    c2_amended enc1 split1 "q" docs2 3
      (argsort (simsOf enc1 "q" (buildPool split1 docs2)))
      (by omega) (by rw [pool2_eq]; simp)
      ⟨1, by rw [sims2_eq]; exact List.mem_cons_self 1 [1], by norm_num⟩
      (argsort_isArgsortOf _)⟩

theorem map_getD_range (l : List Chunk) :
    (List.range l.length).map (fun i => l.getD i ⟨"", ""⟩) = l := by
  apply List.ext_getElem
  · rw [List.length_map, List.length_range]
  · intro i h1 h2
    rw [List.getElem_map, List.getElem_range, List.getD_eq_getElem _ _ h2]

/-- Claim C10: when the pool is non-empty but smaller than `top_k` and the
confidence gate passes, the retriever returns all pool passages (a permutation
of the pool), the result length equals `min top_k (pool size)` i.e. the pool
size, and no error occurs (the embedding is total). -/
theorem c10_smallPool (enc : String → List ℚ) (split : String → Option (List String))
    (query : String) (docs : List Doc) (k : Nat)
    (hp : buildPool split docs ≠ [])
    (hk : (buildPool split docs).length < k)
    (hg : ∃ x ∈ simsOf enc query (buildPool split docs), (0.25 : ℚ) ≤ x) :
    (getRelevantDocs enc split query docs k).length =
      min k (buildPool split docs).length ∧
    (getRelevantDocs enc split query docs k).length = (buildPool split docs).length ∧
    (getRelevantDocs enc split query docs k).Perm (buildPool split docs) := by
  have hs : simsOf enc query (buildPool split docs) ≠ [] := simsOf_ne_nil hp
  have hk1 : 1 ≤ k := by
    have := List.length_pos.mpr hp
    omega
  have hgate := (gate_iff hs k).mpr hg
  have hres : getRelevantDocs enc split query docs k =
      (selIdx k (simsOf enc query (buildPool split docs))).map
        (fun i => (buildPool split docs).getD i ⟨"", ""⟩) := by
    rw [getRelevantDocs_eq enc split query docs k hp, if_pos hgate]
  have hlen : (getRelevantDocs enc split query docs k).length =
      min k (buildPool split docs).length := by
    rw [hres, List.length_map, selIdx_length k _ hk1, simsOf_length]
  refine ⟨hlen, by rw [hlen]; omega, ?_⟩
  have hm : pyTail k (simsOf enc query (buildPool split docs)).length = 0 := by
    rw [pyTail, simsOf_length]
    split <;> omega
  rw [hres, selIdx, hm, List.drop_zero]
  have hperm : ((argsort (simsOf enc query (buildPool split docs))).reverse).Perm
      (List.range (buildPool split docs).length) := by
    refine (List.reverse_perm _).trans ?_
    have := argsort_perm (simsOf enc query (buildPool split docs))
    rwa [simsOf_length] at this
  exact (hperm.map _).trans (by rw [map_getD_range])

/-- Witness for C10 at a concrete input (pool of size 1, `top_k = 3`). -/
theorem c10_smallPool_witness :
    (buildPool split1 docs1 ≠ [] ∧ (buildPool split1 docs1).length < 3 ∧
      ∃ x ∈ simsOf enc1 "q" (buildPool split1 docs1), (0.25 : ℚ) ≤ x) ∧
    ((getRelevantDocs enc1 split1 "q" docs1 3).length =
      min 3 (buildPool split1 docs1).length ∧
    (getRelevantDocs enc1 split1 "q" docs1 3).length = (buildPool split1 docs1).length ∧
    (getRelevantDocs enc1 split1 "q" docs1 3).Perm (buildPool split1 docs1)) :=
  ⟨⟨by decide, by decide,
      ⟨1, by rw [sims1_eq]; exact List.mem_singleton.mpr rfl, by norm_num⟩⟩,
    c10_smallPool enc1 split1 "q" docs1 3 (by decide) (by decide)
      ⟨1, by rw [sims1_eq]; exact List.mem_singleton.mpr rfl, by norm_num⟩⟩

theorem mk_toList (s : String) : String.mk s.toList = s := by
  cases s
  rfl

/-- Claim C3 counterexample: the "exactly when" reading fails.  With a
generation backend whose decoded output is itself the text
"Информация не найдена" (which `clean_response` leaves unchanged), the
end-to-end answer equals the "not found" sentinel although retrieval is
non-empty — so the sentinel does not certify that retrieval was empty, and the
sentinel outcome is not recognizable from the answer string alone. -/
theorem c3_cex :
    getRelevantDocs enc1 split1 "q" docs1 3 ≠ [] ∧
    generate_response enc1 split1 tokEmpty llmNF "q" docs1 = notFoundMsg := by
  refine ⟨by rw [grd1_eq]; simp, ?_⟩
  simp only [generate_response, llmNF, grd1_eq]
  rw [if_neg (by simp : ¬([aChunk] = ([] : List Chunk)))]
  decide

/-- Claim C3 (amended): the two canonical strings are distinct, the embedding
is total (the source catches every backend exception, src/DS1.py lines
155-157, so none escapes), the answer is the "not found" sentinel whenever
retrieval is empty and the generic error fallback whenever the backend raises
with non-empty retrieval; the "exactly when" directions additionally require
that the cleaned generator output never coincides with either canonical string
— the counterexample shows this assumption cannot be dropped. -/
theorem c3_outcomes (enc : String → List ℚ) (split : String → Option (List String))
    (tok : String → List Nat) (llm : List Nat → Option String)
    (query : String) (docs : List Doc)
    (hout : ∀ ts out, llm ts = some out →
      clean_response split out ≠ notFoundMsg ∧ clean_response split out ≠ errorMsg) :
    notFoundMsg ≠ errorMsg ∧
    (generate_response enc split tok llm query docs = notFoundMsg ↔
      getRelevantDocs enc split query docs 3 = []) ∧
    (generate_response enc split tok llm query docs = errorMsg ↔
      (getRelevantDocs enc split query docs 3 ≠ [] ∧
        llm (generatorInput enc split tok query docs) = none)) := by
  have hne : notFoundMsg ≠ errorMsg := by decide
  by_cases hr : getRelevantDocs enc split query docs 3 = []
  · have hgen : generate_response enc split tok llm query docs = notFoundMsg := by
      simp only [generate_response]
      rw [if_pos hr]
    refine ⟨hne, ?_, ?_⟩
    · rw [hgen]
      exact iff_of_true rfl hr
    · rw [hgen]
      refine iff_of_false hne ?_
      rintro ⟨h1, _⟩
      exact h1 hr
  · rcases hllm : llm (generatorInput enc split tok query docs) with _ | out
    · have hgen : generate_response enc split tok llm query docs = errorMsg := by
        simp only [generate_response]
        rw [if_neg hr, hllm]
      refine ⟨hne, ?_, ?_⟩
      · rw [hgen]
        exact iff_of_false (fun h => hne h.symm) hr
      · rw [hgen]
        exact iff_of_true rfl ⟨hr, rfl⟩
    · have hgen : generate_response enc split tok llm query docs =
          clean_response split out := by
        simp only [generate_response]
        rw [if_neg hr, hllm]
      obtain ⟨hc1, hc2⟩ := hout _ out hllm
      refine ⟨hne, ?_, ?_⟩
      · rw [hgen]
        exact iff_of_false hc1 hr
      · rw [hgen]
        refine iff_of_false hc2 ?_
        rintro ⟨_, h2⟩
        exact Option.noConfusion h2

/-- Witness for C3 (amended), applied twice: once with a backend returning an
ordinary answer on a non-empty corpus (the output assumption is discharged
non-vacuously and the generation branch is exercised), and once with a raising
backend on the same corpus (the error branch is exercised). -/
theorem c3_outcomes_witness :
    (notFoundMsg ≠ errorMsg ∧
      (generate_response enc1 split1 tokEmpty llmHello "q" docs1 = notFoundMsg ↔
        getRelevantDocs enc1 split1 "q" docs1 3 = []) ∧
      (generate_response enc1 split1 tokEmpty llmHello "q" docs1 = errorMsg ↔
        (getRelevantDocs enc1 split1 "q" docs1 3 ≠ [] ∧
          llmHello (generatorInput enc1 split1 tokEmpty "q" docs1) = none))) ∧
    (notFoundMsg ≠ errorMsg ∧
      (generate_response enc1 split1 tokEmpty llm0 "q" docs1 = notFoundMsg ↔
        getRelevantDocs enc1 split1 "q" docs1 3 = []) ∧
      (generate_response enc1 split1 tokEmpty llm0 "q" docs1 = errorMsg ↔
        (getRelevantDocs enc1 split1 "q" docs1 3 ≠ [] ∧
          llm0 (generatorInput enc1 split1 tokEmpty "q" docs1) = none))) :=
  ⟨c3_outcomes enc1 split1 tokEmpty llmHello "q" docs1
      (fun ts out h => by
        injection h with h2
        subst h2
        exact ⟨by decide, by decide⟩),
    c3_outcomes enc1 split1 tokEmpty llm0 "q" docs1
      (fun ts out h => by simp [llm0] at h)⟩

/-- Claim C4 counterexample: a tokenized prompt of 4097 tokens is truncated to
its first 4096 tokens, not to the tail that fits — the head is kept, so the
claim "the earliest content of the prompt is lost and the most recent content
is kept" is false. -/
theorem c4_cex :
    4096 < (tok0 "p").length ∧
    hfTruncate 4096 (tok0 "p") ≠ (tok0 "p").drop ((tok0 "p").length - 4096) := by
  have htok : tok0 "p" = List.range 4097 := rfl
  have hlen : (tok0 "p").length = 4097 := by rw [htok, List.length_range]
  refine ⟨by omega, ?_⟩
  intro h
  have h0 := congrArg (fun l : List Nat => l[0]?) h
  simp only [hfTruncate, htok, hlen] at h0
  rw [List.getElem?_take_of_lt (by omega), List.getElem?_range (by omega),
    List.length_range, show 4097 - 4096 = 1 from rfl, List.getElem?_drop,
    List.getElem?_range (by omega)] at h0
  exact absurd (Option.some.inj h0) (by omega)

/-- Claim C4 (amended): when the tokenized prompt exceeds the fixed maximum
input size 4096, the generator's input is the *head* that fits: the first 4096
tokens are kept and the non-empty tail — the most recent content — is lost. -/
theorem c4_amended (tok : String → List Nat) (p : String)
    (h : 4096 < (tok p).length) :
    (hfTruncate 4096 (tok p)).length = 4096 ∧
    hfTruncate 4096 (tok p) ++ (tok p).drop 4096 = tok p ∧
    (tok p).drop 4096 ≠ [] := by
  refine ⟨?_, List.take_append_drop 4096 (tok p), ?_⟩
  · rw [hfTruncate, List.length_take]
    omega
  · apply List.ne_nil_of_length_pos
    rw [List.length_drop]
    omega

/-- Witness for C4 (amended) at a concrete over-long tokenization. -/
theorem c4_amended_witness :
    4096 < (tok0 "p").length ∧
    ((hfTruncate 4096 (tok0 "p")).length = 4096 ∧
      hfTruncate 4096 (tok0 "p") ++ (tok0 "p").drop 4096 = tok0 "p" ∧
      (tok0 "p").drop 4096 ≠ []) :=
  ⟨by rw [show tok0 "p" = List.range 4097 from rfl, List.length_range]; omega,
    c4_amended tok0 "p"
      (by rw [show tok0 "p" = List.range 4097 from rfl, List.length_range]; omega)⟩

/-- Claim C7 counterexample: `clean_response` is not idempotent.  On
`"[1.[1.1.1]1.1]"` (under a sentence tokenizer that treats the whole text as a
single sentence, as `nltk.sent_tokenize` does here) the single-pass footnote
removal turns the text into `"[1.1.1]"`, which itself matches the footnote
pattern, so a second application removes it and yields a different string. -/
theorem c7_cex :
    clean_response stOne (clean_response stOne cexClean) ≠
      clean_response stOne cexClean := by
  decide

/-- Claim C7 (amended): applying `clean_response` to an already-cleaned string
is a no-op provided the cleaned string is a fixed point of every stage: it
contains no role-delimiter marker, no residual footnote pattern (which the
single-pass `re.sub` can leave behind — the source of the counterexample), and
re-splitting it yields at most 10 sentences that join back to itself. -/
theorem c7_amended (split : String → Option (List String)) (x : String)
    (h1 : containsSub (clean_response split x).toList imMarker = false)
    (h2 : removeFootnotes (clean_response split x).toList =
      (clean_response split x).toList)
    (h3 : ∃ l, split (clean_response split x) = some l ∧ l.take 10 = l ∧
      joinSpace l = clean_response split x) :
    clean_response split (clean_response split x) = clean_response split x := by
  obtain ⟨l, hl, hl10, hlj⟩ := h3
  set y := clean_response split x with hy
  rw [clean_response]
  simp only [h1, Bool.false_eq_true, if_false, h2, mk_toList, hl, hl10, hlj]

/-- Witness for C7 (amended) at a concrete already-clean input. -/
theorem c7_amended_witness :
    containsSub (clean_response stOne "hello").toList imMarker = false ∧
    clean_response stOne (clean_response stOne "hello") = clean_response stOne "hello" :=
  ⟨by decide,
    c7_amended stOne "hello" (by decide) (by decide)
      ⟨["hello"], by decide, by decide, by decide⟩⟩
